import Mathlib

/-!
Verification of the join-csv program (src/main.rs): a declarative multi-source
key-join over CSV data.  The Rust source is shallowly embedded below:

* `Key`, `Projection`, `Data`, `JoinInput` mirror the type aliases in main.rs.
* `IndexMap<K, V>` is modelled as an association list in first-insertion order,
  with `mapInsert` implementing the replace-in-place semantics of
  `IndexMap::insert` (an existing key keeps its position, its value is updated;
  a new key is appended).
* A CSV file is modelled at the record level (`CsvFile`): a header row plus a
  list of data rows, each a list of string fields.  The csv crate's default
  reader (flexible = false) yields an `UnequalLengths` error, carrying the
  record's position, for any record whose field count differs from the
  header's; this is modelled by the length check in `readRows`.
* Aborts are modelled by `RunError`.  The Rust code aborts in two distinct
  ways: by propagating an error value (`?` on file opening and on record
  parsing), and by panicking (`Option::unwrap()` on a `None` value when a
  requested column is absent from a header or when a driver key is missing
  from a non-driver source, and an out-of-bounds index when `input[0]` is
  evaluated on an empty vector).  A Rust `unwrap` panic carries no context —
  its message is the constant string "called Option::unwrap() on a None
  value" — so the corresponding constructor `panicUnwrapNone` carries no data.
-/

/-- Rust `type Key = Vec<String>` — ordered key values, one per key column. -/
abbrev Key := List String

/-- Rust `type Projection = Vec<String>` — ordered projected values of one row. -/
abbrev Projection := List String

/-- Rust `type Data = IndexMap<Key, Projection>` — one source's indexed mapping,
modelled as an association list in first-insertion order. -/
abbrev Data := List (Key × Projection)

/-- Rust `type JoinInput = Vec<Data>`. -/
abbrev JoinInput := List Data

/-- The `Source` struct of main.rs: a file path and an insertion-ordered
projection map from source column name to output column name
(`IndexMap<String, String>`, modelled as an association list). -/
structure Source where
  path : String
  projections : List (String × String)
  deriving Repr, DecidableEq

/-- The `JoinSpec` struct of main.rs. -/
structure JoinSpec where
  key : List String
  sources : List Source
  output : String
  deriving Repr, DecidableEq

/-- A CSV input file at the record level: the header row and the data rows. -/
structure CsvFile where
  header : List String
  rows : List (List String)
  deriving Repr, DecidableEq

/-- The ways a run of the program aborts. -/
inductive RunError where
  /-- An `anyhow` error propagated by `?` from `csv::Reader::from_path` or
  `csv::Writer::from_path` when a path cannot be opened. -/
  | ioError
  /-- A csv-crate record error propagated by `?` from `record?`: with the
  default (non-flexible) reader a record whose field count differs from the
  header's yields `UnequalLengths`, which carries the record's position;
  `ordinal` is the 1-based position of the offending data row. -/
  | rowParseError (ordinal : Nat)
  /-- A panic from `Option::unwrap()` on `None`.  The panic message is the
  constant "called Option::unwrap() on a None value": it carries no
  information about which column, key or source triggered it. -/
  | panicUnwrapNone
  /-- A panic from indexing `input[0]` when `input` is empty. -/
  | panicIndexOutOfBounds
  deriving Repr, DecidableEq

/-- Insertion into an insertion-ordered association map, the observable
semantics shared by `IndexMap::insert` and by collecting into a `HashMap`
(where only lookup, not order, is observable): if the key is present its value
is replaced in place (the key keeps its first-insertion position); otherwise
the pair is appended. -/
def mapInsert {α β : Type} [DecidableEq α] (m : List (α × β)) (k : α) (v : β) :
    List (α × β) :=
  if k ∈ m.map Prod.fst then
    m.map (fun p => if p.1 = k then (k, v) else p)
  else
    m ++ [(k, v)]

/-- Lookup by key (`IndexMap::get`, `HashMap::get`). -/
def mapGet {α β : Type} [DecidableEq α] (m : List (α × β)) (k : α) : Option β :=
  (m.find? (fun p => p.1 = k)).map Prod.snd

/-- The `headers` HashMap of `read_file`: built from
`enumerate().map(|(idx, col)| (col, idx)).collect()`, so for a duplicated
header name the later (larger) index wins.  Only lookup is observable. -/
def buildHeaderMap (header : List String) : List (String × Nat) :=
  header.enum.foldl (fun m ic => mapInsert m ic.2 ic.1) []

/-- Resolution of a list of requested column names to positional offsets:
`spec.map(|col| *headers.get(col).unwrap()).collect()`.  `none` models the
`unwrap` panic on the first name absent from the header map. -/
def resolveCols (m : List (String × Nat)) : List String → Option (List Nat)
  | [] => some []
  | c :: cs =>
    match mapGet m c, resolveCols m cs with
    | some i, some is => some (i :: is)
    | _, _ => none

/-- Field extraction `record.get(idx).unwrap()` for each resolved offset.  In
the loop every record's length equals the header's length and every resolved
offset is below it, so the default is never hit. -/
def extractAt (idxs : List Nat) (record : List String) : List String :=
  idxs.map (fun i => record.getD i "")

/-- The record loop of `read_file`: for each data row in file order, check it
parses (field count = header's, else the csv iterator yields an error at that
row's position), extract Key and Projection at the resolved offsets and insert
into the `IndexMap`.  `n` is the 1-based ordinal of the next data row. -/
def readRows (kIdx pIdx : List Nat) (expected : Nat) :
    Nat → Data → List (List String) → Except RunError Data
  | _, acc, [] => .ok acc
  | n, acc, r :: rs =>
    if r.length = expected then
      readRows kIdx pIdx expected (n + 1)
        (mapInsert acc (extractAt kIdx r) (extractAt pIdx r)) rs
    else
      .error (.rowParseError n)

/-- Model of `read_file` of main.rs, given the already-opened file's records: build the
header map, resolve ALL key and projection column names to offsets (an absent
name panics — `.error .panicUnwrapNone` — before any data row is touched),
then run the record loop. -/
def read_file (file : CsvFile) (key_spec proj_spec : List String) :
    Except RunError Data :=
  let headers := buildHeaderMap file.header
  match resolveCols headers key_spec, resolveCols headers proj_spec with
  | some kIdx, some pIdx => readRows kIdx pIdx file.header.length 1 [] file.rows
  | _, _ => .error .panicUnwrapNone

/-- The file system visible to a run: which `CsvFile` lives at each path.
`csv::Reader::from_path` fails (`?`, an IO error) on a path not present. -/
abbrev FileSys := List (String × CsvFile)

def fsOpen (fs : FileSys) (path : String) : Option CsvFile :=
  (fs.find? (fun p => p.1 = path)).map Prod.snd

/-- The source loop of `read_input`: index each declared source in order,
aborting at the first failure. -/
def readSources (spec : JoinSpec) (fs : FileSys) :
    List Source → Except RunError JoinInput
  | [] => .ok []
  | s :: ss =>
    match fsOpen fs s.path with
    | none => .error .ioError
    | some file =>
      match read_file file spec.key (s.projections.map Prod.fst) with
      | .error e => .error e
      | .ok d =>
        match readSources spec fs ss with
        | .error e => .error e
        | .ok ds => .ok (d :: ds)

/-- Model of `read_input` of main.rs. -/
def read_input (spec : JoinSpec) (fs : FileSys) : Except RunError JoinInput :=
  readSources spec fs spec.sources

/-- The per-key lookups `source_data.get(key)` over the non-driver sources
`&input[1..]`, in declaration order; `none` models the `unwrap` panic at
the first source missing the key. -/
def lookupAll : JoinInput → Key → Option (List Projection)
  | [], _ => some []
  | d :: ds, k =>
    match mapGet d k, lookupAll ds k with
    | some q, some qs => some (q :: qs)
    | _, _ => none

/-- The row loop of `write_output`: for each driver entry `(key, projection)`
in insertion order emit `key ++ projection ++` the non-driver projections in
declaration order; a missing key in any non-driver source is an `unwrap`
panic, aborting the whole run at that entry. -/
def rowsOf (rest : JoinInput) : Data → Except RunError (List (List String))
  | [] => .ok []
  | (k, p) :: es =>
    match lookupAll rest k with
    | none => .error .panicUnwrapNone
    | some qs =>
      match rowsOf rest es with
      | .error e => .error e
      | .ok rs => .ok ((k ++ p ++ qs.flatten) :: rs)

/-- The header row of `write_output`: the key column names in `JoinSpec.key`
order, then for each source in declaration order the projection output names
(the values of its `projections` map) in insertion order. -/
def headerRow (spec : JoinSpec) : List String :=
  spec.key ++ (spec.sources.map (fun s => s.projections.map Prod.snd)).flatten

/-- Model of `write_output` of main.rs, with the emitted CSV records as the result
value: the header record followed by one record per driver entry.  `input[0]`
on an empty vector is an index-out-of-bounds panic.  (The `Writer` I/O and the
`num_cols` capacity hint are not observable in the record stream.) -/
def write_output (spec : JoinSpec) (input : JoinInput) :
    Except RunError (List (List String)) :=
  match input with
  | [] => .error .panicIndexOutOfBounds
  | d0 :: rest =>
    match rowsOf rest d0 with
    | .error e => .error e
    | .ok rs => .ok (headerRow spec :: rs)

/-- A whole run after the spec is loaded: `read_input` then `write_output`,
as in `main`. -/
def runJoin (spec : JoinSpec) (fs : FileSys) :
    Except RunError (List (List String)) :=
  match read_input spec fs with
  | .error e => .error e
  | .ok input => write_output spec input

/-!
The specification document and `load_spec`.  `load_spec` is
`serde_yaml::from_reader` with the derived `Deserialize` of `JoinSpec` and
`Source`; the YAML document is modelled already parsed into a node tree
(`Yaml`, with string scalars and string-keyed mappings — the shapes the spec
document uses), and the derived deserializers are modelled field by field:
a struct requires each of its fields to be present with the right shape and
performs no other validation (unknown fields are ignored, serde's default).
`Vec<String>` and `Vec<Source>` accept any sequence, including the empty one;
`IndexMap<String, String>` accepts any mapping, in insertion order. -/

inductive Yaml where
  | str (s : String)
  | seq (items : List Yaml)
  | map (entries : List (String × Yaml))
  deriving Repr

def yamlField : List (String × Yaml) → String → Option Yaml
  | [], _ => none
  | (k, v) :: es, f => if k = f then some v else yamlField es f

def deserString : Yaml → Option String
  | .str s => some s
  | _ => none

def deserStringList : Yaml → Option (List String)
  | .seq items =>
    items.foldr
      (fun it acc =>
        match deserString it, acc with
        | some s, some ss => some (s :: ss)
        | _, _ => none)
      (some [])
  | _ => none

def deserProjections : Yaml → Option (List (String × String))
  | .map entries =>
    entries.foldr
      (fun e acc =>
        match deserString e.2, acc with
        | some v, some ps => some ((e.1, v) :: ps)
        | _, _ => none)
      (some [])
  | _ => none

def deserSource : Yaml → Option Source
  | .map entries =>
    match yamlField entries "path", yamlField entries "projections" with
    | some pv, some jv =>
      match deserString pv, deserProjections jv with
      | some path, some projs => some ⟨path, projs⟩
      | _, _ => none
    | _, _ => none
  | _ => none

def deserSourceList : Yaml → Option (List Source)
  | .seq items =>
    items.foldr
      (fun it acc =>
        match deserSource it, acc with
        | some s, some ss => some (s :: ss)
        | _, _ => none)
      (some [])
  | _ => none

/-- Model of `load_spec` of main.rs: deserialize a `JoinSpec` from the (parsed)
specification document.  All three fields are required with the right shape;
nothing else — in particular no non-emptiness check on `key` or `sources` —
is validated. -/
def load_spec (doc : Yaml) : Option JoinSpec :=
  match doc with
  | .map entries =>
    match yamlField entries "key", yamlField entries "sources",
        yamlField entries "output" with
    | some kv, some sv, some ov =>
      match deserStringList kv, deserSourceList sv, deserString ov with
      | some key, some sources, some output => some ⟨key, sources, output⟩
      | _, _, _ => none
    | _, _, _ => none
  | _ => none

/-- The body of the record loop as a fold step: insert one data row's
Key/Projection pair into the accumulated mapping. -/
def rowStep (kIdx pIdx : List Nat) (acc : Data) (r : List String) : Data :=
  mapInsert acc (extractAt kIdx r) (extractAt pIdx r)

/-- Keys in order of first appearance, those already in `seen` skipped. -/
def firstSeenAux (seen : List Key) : List Key → List Key
  | [] => []
  | k :: ks =>
    if k ∈ seen then firstSeenAux seen ks
    else k :: firstSeenAux (seen ++ [k]) ks

/-- The order of first appearance of each key in a list: the spec's notion of
first-seen-row order. -/
def firstSeen (ks : List Key) : List Key :=
  firstSeenAux [] ks

/-!  Concrete data for the spec's round-trip scenario and its variants. -/

/-- Join specification of the spec's round-trip scenario: key `id`, source A
projecting `name`, source B projecting `score`. -/
def specAB : JoinSpec :=
  { key := ["id"],
    sources := [⟨"a.csv", [("name", "name")]⟩, ⟨"b.csv", [("score", "score")]⟩],
    output := "out.csv" }

/-- Round-trip input files: A has rows (1,alice),(2,bob); B has (2,90),(1,80). -/
def fsRound : FileSys :=
  [("a.csv", ⟨["id", "name"], [["1", "alice"], ["2", "bob"]]⟩),
   ("b.csv", ⟨["id", "score"], [["2", "90"], ["1", "80"]]⟩)]

/-- Round-trip files with B lacking id 2: the driver key ["2"] has no entry in
source B (source index 1). -/
def fsMissing2 : FileSys :=
  [("a.csv", ⟨["id", "name"], [["1", "alice"], ["2", "bob"]]⟩),
   ("b.csv", ⟨["id", "score"], [["1", "80"]]⟩)]

/-- Three-source specification: key `id`; A projects `name`, B projects
`score`, C projects `age`. -/
def specABC : JoinSpec :=
  { key := ["id"],
    sources := [⟨"a.csv", [("name", "name")]⟩, ⟨"b.csv", [("score", "score")]⟩,
                ⟨"c.csv", [("age", "age")]⟩],
    output := "out.csv" }

/-- Files for `specABC` in which a different key, ["3"], is missing from a
different source, C (source index 2). -/
def fsMissing3 : FileSys :=
  [("a.csv", ⟨["id", "name"], [["1", "alice"], ["3", "carol"]]⟩),
   ("b.csv", ⟨["id", "score"], [["1", "80"], ["3", "70"]]⟩),
   ("c.csv", ⟨["id", "age"], [["1", "30"]]⟩)]

/-- Files in which source A's header has `nom` instead of the requested
projection column `name`. -/
def fsBadCol : FileSys :=
  [("a.csv", ⟨["id", "nom"], [["1", "alice"]]⟩),
   ("b.csv", ⟨["id", "score"], [["1", "80"]]⟩)]

/-- A file whose second data row has the wrong field count. -/
def badRowFile : CsvFile :=
  ⟨["id", "name"], [["1", "alice"], ["2"]]⟩

/-- A file in which the key ["1"] appears in two data rows. -/
def dupKeyFile : CsvFile :=
  ⟨["id", "name"], [["1", "a"], ["2", "b"], ["1", "c"]]⟩

/-- A well-formed specification document whose `sources` sequence is empty. -/
def emptySourcesDoc : Yaml :=
  .map [("key", .seq [.str "id"]), ("sources", .seq []),
        ("output", .str "out.csv")]

/-!  Lemmas about the ordered-map model (`mapInsert` / `mapGet`). -/

theorem mapGet_cons_of_eq {α β : Type} [DecidableEq α] (p : α × β) (d : List (α × β)) (k : α)
    (h : p.1 = k) : mapGet (p :: d) k = some p.2 := by
  rw [mapGet, List.find?_cons_of_pos _ (by simpa using h)]
  rfl

theorem mapGet_cons_of_ne {α β : Type} [DecidableEq α] (p : α × β) (d : List (α × β)) (k : α)
    (h : p.1 ≠ k) : mapGet (p :: d) k = mapGet d k := by
  rw [mapGet, List.find?_cons_of_neg _ (by simpa using h)]
  rfl

theorem mapGet_eq_none {α β : Type} [DecidableEq α] (d : List (α × β)) (k : α) :
    mapGet d k = none ↔ k ∉ d.map Prod.fst := by
  rw [mapGet, Option.map_eq_none', List.find?_eq_none]
  constructor
  · intro h hmem
    rw [List.mem_map] at hmem
    obtain ⟨p, hp, hk⟩ := hmem
    exact h p hp (decide_eq_true hk)
  · intro h p hp hk
    exact h (List.mem_map.mpr ⟨p, hp, of_decide_eq_true hk⟩)

theorem find?_entry_key {α β : Type} [DecidableEq α] (d : List (α × β)) (k : α) (q : α × β)
    (h : d.find? (fun p => p.1 = k) = some q) : q.1 = k ∧ q ∈ d := by
  induction d with
  | nil => cases h
  | cons p d ih =>
    by_cases hp : p.1 = k
    · rw [List.find?_cons_of_pos _ (by simpa using hp)] at h
      cases h
      exact ⟨hp, List.mem_cons_self _ _⟩
    · rw [List.find?_cons_of_neg _ (by simpa using hp)] at h
      obtain ⟨h1, h2⟩ := ih h
      exact ⟨h1, List.mem_cons_of_mem _ h2⟩

theorem mapGet_eq_some_mem {α β : Type} [DecidableEq α] (d : List (α × β)) (k : α) (v : β)
    (h : mapGet d k = some v) : (k, v) ∈ d := by
  rw [mapGet, Option.map_eq_some'] at h
  obtain ⟨q, hq, hv⟩ := h
  obtain ⟨hk, hmem⟩ := find?_entry_key d k q hq
  have hqe : q = (k, v) := by
    obtain ⟨q1, q2⟩ := q
    simp only at hk hv
    rw [hk, hv]
  rwa [hqe] at hmem

theorem mapInsert_keys {α β : Type} [DecidableEq α] (d : List (α × β)) (k : α) (v : β) :
    (mapInsert d k v).map Prod.fst =
      if k ∈ d.map Prod.fst then d.map Prod.fst else d.map Prod.fst ++ [k] := by
  unfold mapInsert
  by_cases h : k ∈ d.map Prod.fst
  · simp only [h, if_true, List.map_map]
    refine List.map_congr_left ?_
    intro p _
    by_cases hp : p.1 = k
    · simp [hp]
    · simp [hp]
  · simp [h]

theorem mapGet_replace_self {α β : Type} [DecidableEq α] (d : List (α × β)) (k : α) (v : β)
    (h : k ∈ d.map Prod.fst) :
    mapGet (d.map (fun p => if p.1 = k then (k, v) else p)) k = some v := by
  induction d with
  | nil => simp at h
  | cons p d ih =>
    by_cases hp : p.1 = k
    · rw [List.map_cons, if_pos hp, mapGet_cons_of_eq _ _ _ rfl]
    · have hd : k ∈ d.map Prod.fst := by
        rw [List.map_cons] at h
        rcases List.mem_cons.mp h with h1 | h1
        · exact absurd h1.symm hp
        · exact h1
      rw [List.map_cons, if_neg hp, mapGet_cons_of_ne _ _ _ hp]
      exact ih hd

theorem mapGet_replace_other {α β : Type} [DecidableEq α] (d : List (α × β)) (k : α) (v : β) (k' : α)
    (h : k' ≠ k) :
    mapGet (d.map (fun p => if p.1 = k then (k, v) else p)) k' = mapGet d k' := by
  induction d with
  | nil => rfl
  | cons p d ih =>
    by_cases hp : p.1 = k
    · rw [List.map_cons, if_pos hp, mapGet_cons_of_ne _ _ _ (fun hh => h hh.symm),
        mapGet_cons_of_ne _ _ _ (fun hh => h (hh.symm.trans hp)), ih]
    · by_cases hk' : p.1 = k'
      · rw [List.map_cons, if_neg hp, mapGet_cons_of_eq _ _ _ hk',
          mapGet_cons_of_eq _ _ _ hk']
      · rw [List.map_cons, if_neg hp, mapGet_cons_of_ne _ _ _ hk',
          mapGet_cons_of_ne _ _ _ hk', ih]

theorem mapGet_mapInsert {α β : Type} [DecidableEq α] (d : List (α × β)) (k : α) (v : β) (k' : α) :
    mapGet (mapInsert d k v) k' = if k' = k then some v else mapGet d k' := by
  unfold mapInsert
  by_cases hmem : k ∈ d.map Prod.fst
  · rw [if_pos hmem]
    by_cases h : k' = k
    · subst h
      rw [if_pos rfl]
      exact mapGet_replace_self d k' v hmem
    · rw [if_neg h]
      exact mapGet_replace_other d k v k' h
  · rw [if_neg hmem]
    by_cases h : k' = k
    · subst h
      have hnone : d.find? (fun p => p.1 = k') = none := by
        rw [List.find?_eq_none]
        intro p hp hk
        exact hmem (List.mem_map.mpr ⟨p, hp, of_decide_eq_true hk⟩)
      rw [if_pos rfl, mapGet, List.find?_append, hnone, Option.none_or,
        List.find?_cons_of_pos _ (by simp)]
      rfl
    · rw [if_neg h, mapGet, List.find?_append,
        show List.find? (fun p => decide (p.1 = k')) [(k, v)] = none from by
          rw [List.find?_cons_of_neg _ (by simpa using fun hh => h hh.symm)]
          rfl,
        Option.or_none]
      rfl

theorem mapInsert_mem {α β : Type} [DecidableEq α] (d : List (α × β)) (k : α) (v : β) (e : α × β)
    (h : e ∈ mapInsert d k v) : e ∈ d ∨ e = (k, v) := by
  unfold mapInsert at h
  by_cases hmem : k ∈ d.map Prod.fst
  · rw [if_pos hmem] at h
    rw [List.mem_map] at h
    obtain ⟨p, hp, he⟩ := h
    by_cases hpk : p.1 = k
    · rw [if_pos hpk] at he
      exact Or.inr he.symm
    · rw [if_neg hpk] at he
      exact Or.inl (he ▸ hp)
  · rw [if_neg hmem, List.mem_append, List.mem_singleton] at h
    exact h

/-!  Lemmas about header resolution. -/

theorem mapGet_enumFold_none (ps : List (Nat × String))
    (m0 : List (String × Nat)) (c : String) :
    mapGet (ps.foldl (fun m ic => mapInsert m ic.2 ic.1) m0) c = none ↔
      mapGet m0 c = none ∧ c ∉ ps.map Prod.snd := by
  induction ps generalizing m0 with
  | nil => simp
  | cons ic ps ih =>
    rw [List.foldl_cons, ih, mapGet_mapInsert]
    by_cases hc : c = ic.2
    · simp [hc]
    · simp [hc, List.mem_cons]

theorem mapGet_buildHeaderMap_none (hdr : List String) (c : String) :
    mapGet (buildHeaderMap hdr) c = none ↔ c ∉ hdr := by
  rw [buildHeaderMap, mapGet_enumFold_none]
  simp [mapGet, List.enum_map_snd]

theorem resolveCols_length (m : List (String × Nat)) (cs : List String)
    (is : List Nat) (h : resolveCols m cs = some is) : is.length = cs.length := by
  induction cs generalizing is with
  | nil =>
    cases h
    rfl
  | cons c cs ih =>
    simp only [resolveCols] at h
    rcases hg : mapGet m c with _ | i
    · rw [hg] at h
      cases h
    · rcases hr : resolveCols m cs with _ | is'
      · rw [hg, hr] at h
        cases h
      · rw [hg, hr] at h
        cases h
        simp [ih is' hr]

theorem resolveCols_none (m : List (String × Nat)) (cs : List String) (c : String)
    (hc : c ∈ cs) (hnone : mapGet m c = none) : resolveCols m cs = none := by
  induction cs with
  | nil => cases hc
  | cons c' cs ih =>
    simp only [resolveCols]
    rcases List.mem_cons.mp hc with h | h
    · subst h
      rw [hnone]
    · rw [ih h]
      cases mapGet m c' <;> rfl

/-!  Lemmas about the record loop. -/

theorem readRows_eq_foldl (kIdx pIdx : List Nat) (expected n : Nat) (acc : Data)
    (rows : List (List String)) (h : ∀ r ∈ rows, r.length = expected) :
    readRows kIdx pIdx expected n acc rows =
      .ok (rows.foldl (rowStep kIdx pIdx) acc) := by
  induction rows generalizing n acc with
  | nil => rfl
  | cons r rs ih =>
    rw [readRows, if_pos (h r (List.mem_cons_self r rs)), List.foldl_cons]
    exact ih (n + 1) _ (fun r' hr' => h r' (List.mem_cons_of_mem _ hr'))

theorem readRows_ok_lengths (kIdx pIdx : List Nat) (expected n : Nat) (acc : Data)
    (rows : List (List String)) (d : Data)
    (h : readRows kIdx pIdx expected n acc rows = .ok d) :
    ∀ r ∈ rows, r.length = expected := by
  induction rows generalizing n acc with
  | nil =>
    intro r hr
    cases hr
  | cons r rs ih =>
    rw [readRows] at h
    by_cases hl : r.length = expected
    · rw [if_pos hl] at h
      intro r' hr'
      rcases List.mem_cons.mp hr' with h1 | h1
      · rw [h1, hl]
      · exact ih _ _ h r' h1
    · rw [if_neg hl] at h
      cases h

theorem readRows_badRow (kIdx pIdx : List Nat) (expected n : Nat) (acc : Data)
    (rows : List (List String))
    (hbad : ∃ r ∈ rows, r.length ≠ expected) :
    readRows kIdx pIdx expected n acc rows =
      .error (.rowParseError (n + rows.findIdx (fun r => r.length != expected))) := by
  induction rows generalizing n acc with
  | nil =>
    obtain ⟨r, hr, _⟩ := hbad
    cases hr
  | cons r rs ih =>
    by_cases hl : r.length = expected
    · have hbad' : ∃ r' ∈ rs, r'.length ≠ expected := by
        obtain ⟨r', hr', hne⟩ := hbad
        rcases List.mem_cons.mp hr' with h1 | h1
        · exact absurd (h1 ▸ hl) hne
        · exact ⟨r', h1, hne⟩
      rw [readRows, if_pos hl, ih _ _ hbad', List.findIdx_cons]
      have hfalse : (r.length != expected) = false := by simp [hl]
      rw [hfalse]
      have : n + 1 + List.findIdx (fun r => r.length != expected) rs =
          n + (List.findIdx (fun r => r.length != expected) rs + 1) := by omega
      simp [this]
    · rw [readRows, if_neg hl, List.findIdx_cons]
      have htrue : (r.length != expected) = true := by simp [hl]
      rw [htrue]
      simp

theorem read_file_ok_elim (file : CsvFile) (ks ps : List String) (d : Data)
    (h : read_file file ks ps = .ok d) :
    ∃ kIdx pIdx, resolveCols (buildHeaderMap file.header) ks = some kIdx ∧
      resolveCols (buildHeaderMap file.header) ps = some pIdx ∧
      (∀ r ∈ file.rows, r.length = file.header.length) ∧
      d = file.rows.foldl (rowStep kIdx pIdx) [] := by
  simp only [read_file] at h
  rcases hk : resolveCols (buildHeaderMap file.header) ks with _ | kIdx
  · rw [hk] at h
    rcases resolveCols (buildHeaderMap file.header) ps with _ | pIdx <;> cases h
  · rcases hp : resolveCols (buildHeaderMap file.header) ps with _ | pIdx
    · rw [hk, hp] at h
      cases h
    · rw [hk, hp] at h
      change readRows kIdx pIdx file.header.length 1 [] file.rows = Except.ok d at h
      have hlen := readRows_ok_lengths _ _ _ _ _ _ _ h
      rw [readRows_eq_foldl _ _ _ _ _ _ hlen] at h
      cases h
      exact ⟨kIdx, pIdx, rfl, rfl, hlen, rfl⟩

/-!  What the indexed mapping of one source looks like. -/

theorem foldl_rowStep_keys (kIdx pIdx : List Nat) (rows : List (List String))
    (acc : Data) :
    (rows.foldl (rowStep kIdx pIdx) acc).map Prod.fst =
      acc.map Prod.fst ++
        firstSeenAux (acc.map Prod.fst) (rows.map (extractAt kIdx)) := by
  induction rows generalizing acc with
  | nil => simp [firstSeenAux]
  | cons r rs ih =>
    rw [List.foldl_cons, ih, List.map_cons]
    have hk := mapInsert_keys acc (extractAt kIdx r) (extractAt pIdx r)
    by_cases hmem : extractAt kIdx r ∈ acc.map Prod.fst
    · rw [show (rowStep kIdx pIdx acc r).map Prod.fst = acc.map Prod.fst from by
        rw [rowStep, hk, if_pos hmem]]
      rw [firstSeenAux, if_pos hmem]
    · rw [show (rowStep kIdx pIdx acc r).map Prod.fst =
          acc.map Prod.fst ++ [extractAt kIdx r] from by
        rw [rowStep, hk, if_neg hmem]]
      rw [firstSeenAux, if_neg hmem, List.append_assoc]
      rfl

theorem foldl_rowStep_get (kIdx pIdx : List Nat) (rows : List (List String))
    (acc : Data) (k : Key) :
    mapGet (rows.foldl (rowStep kIdx pIdx) acc) k =
      ((rows.reverse.find? (fun r => extractAt kIdx r = k)).map
        (extractAt pIdx)).or (mapGet acc k) := by
  induction rows generalizing acc with
  | nil => simp
  | cons r rs ih =>
    rw [List.foldl_cons, ih, List.reverse_cons, List.find?_append]
    by_cases hr : extractAt kIdx r = k
    · have hstep : mapGet (rowStep kIdx pIdx acc r) k = some (extractAt pIdx r) := by
        rw [rowStep, mapGet_mapInsert, if_pos hr.symm]
      rw [hstep, List.find?_cons_of_pos _ (by simpa using hr)]
      cases rs.reverse.find? (fun r => extractAt kIdx r = k) <;> rfl
    · have hstep : mapGet (rowStep kIdx pIdx acc r) k = mapGet acc k := by
        rw [rowStep, mapGet_mapInsert, if_neg (fun hh => hr hh.symm)]
      rw [hstep, show List.find? (fun r' => extractAt kIdx r' = k) [r] = none from by
        rw [List.find?_cons_of_neg _ (by simpa using hr)]
        rfl]
      rw [Option.or_none]

theorem foldl_rowStep_shape (kIdx pIdx : List Nat) (rows : List (List String))
    (acc : Data)
    (hacc : ∀ e ∈ acc, (e : Key × Projection).1.length = kIdx.length ∧
      e.2.length = pIdx.length) :
    ∀ e ∈ rows.foldl (rowStep kIdx pIdx) acc,
      e.1.length = kIdx.length ∧ e.2.length = pIdx.length := by
  induction rows generalizing acc with
  | nil => exact hacc
  | cons r rs ih =>
    rw [List.foldl_cons]
    refine ih _ ?_
    intro e he
    rcases mapInsert_mem acc (extractAt kIdx r) (extractAt pIdx r) e he with h | h
    · exact hacc e h
    · subst h
      constructor <;> simp [extractAt]

theorem read_file_shape (file : CsvFile) (ks ps : List String) (d : Data)
    (h : read_file file ks ps = .ok d) :
    ∀ e ∈ d, (e : Key × Projection).1.length = ks.length ∧
      e.2.length = ps.length := by
  obtain ⟨kIdx, pIdx, hk, hp, _, hd⟩ := read_file_ok_elim file ks ps d h
  have hkl := resolveCols_length _ _ _ hk
  have hpl := resolveCols_length _ _ _ hp
  intro e he
  have := foldl_rowStep_shape kIdx pIdx file.rows [] (by intro e he'; cases he')
    e (hd ▸ he)
  rw [← hkl, ← hpl]
  exact this

/-!  Lemmas about the non-driver lookups and the row loop. -/

theorem lookupAll_none (ds : JoinInput) (k : Key) (d : Data) (hd : d ∈ ds)
    (h : mapGet d k = none) : lookupAll ds k = none := by
  induction ds with
  | nil => cases hd
  | cons d' ds ih =>
    rw [lookupAll]
    rcases List.mem_cons.mp hd with h1 | h1
    · subst h1
      rw [h]
    · rw [ih h1]
      cases mapGet d' k <;> rfl

theorem lookupAll_lengths (stail : List Source) (rest : JoinInput) (k : Key)
    (qs : List Projection)
    (hshape : List.Forall₂
      (fun (s : Source) (d : Data) =>
        ∀ e ∈ d, (e : Key × Projection).2.length = s.projections.length)
      stail rest)
    (h : lookupAll rest k = some qs) :
    qs.map List.length = stail.map (fun s => s.projections.length) := by
  induction hshape generalizing qs with
  | nil =>
    cases h
    rfl
  | cons hsd htail ih =>
    rw [lookupAll] at h
    rcases hg : mapGet _ k with _ | q
    · rw [hg] at h
      cases h
    · rcases hl : lookupAll _ k with _ | qs'
      · rw [hg, hl] at h
        cases h
      · rw [hg, hl] at h
        cases h
        rw [List.map_cons, List.map_cons, ih _ hl,
          hsd (k, q) (mapGet_eq_some_mem _ _ _ hg)]

theorem rowsOf_err (rest : JoinInput) (es : Data) (k : Key)
    (hk : k ∈ es.map Prod.fst) (hnone : lookupAll rest k = none) :
    rowsOf rest es = .error .panicUnwrapNone := by
  induction es with
  | nil => cases hk
  | cons e es ih =>
    obtain ⟨k', p'⟩ := e
    rw [List.map_cons] at hk
    rcases List.mem_cons.mp hk with h1 | h1
    · subst h1
      rw [rowsOf, hnone]
    · rcases hl : lookupAll rest k' with _ | qs
      · rw [rowsOf, hl]
      · rw [rowsOf, hl, ih h1]

theorem rowsOf_ok_get (rest : JoinInput) (es : Data) (rs : List (List String))
    (h : rowsOf rest es = .ok rs) (j : Nat) (hj : j < es.length) :
    ∃ qs, lookupAll rest (es.get ⟨j, hj⟩).1 = some qs ∧
      rs.get? j = some ((es.get ⟨j, hj⟩).1 ++ (es.get ⟨j, hj⟩).2 ++ qs.flatten) := by
  induction es generalizing rs j with
  | nil => cases hj
  | cons e es ih =>
    obtain ⟨k, p⟩ := e
    rw [rowsOf] at h
    rcases hl : lookupAll rest k with _ | qs
    · rw [hl] at h
      cases h
    · rw [hl] at h
      rcases hr : rowsOf rest es with e' | rs'
      · rw [hr] at h
        cases h
      · rw [hr] at h
        cases h
        cases j with
        | zero => exact ⟨qs, hl, rfl⟩
        | succ j =>
          have hj' : j < es.length := by simpa using hj
          obtain ⟨qs', h1, h2⟩ := ih rs' hr j hj'
          exact ⟨qs', h1, h2⟩

theorem rowsOf_ok_mem (rest : JoinInput) (es : Data) (rs : List (List String))
    (h : rowsOf rest es = .ok rs) (row : List String) (hrow : row ∈ rs) :
    ∃ k p qs, (k, p) ∈ es ∧ lookupAll rest k = some qs ∧
      row = k ++ p ++ qs.flatten := by
  induction es generalizing rs with
  | nil =>
    cases h
    cases hrow
  | cons e es ih =>
    obtain ⟨k, p⟩ := e
    rw [rowsOf] at h
    rcases hl : lookupAll rest k with _ | qs
    · rw [hl] at h
      cases h
    · rw [hl] at h
      rcases hr : rowsOf rest es with e' | rs'
      · rw [hr] at h
        cases h
      · rw [hr] at h
        cases h
        rcases List.mem_cons.mp hrow with h1 | h1
        · exact ⟨k, p, qs, List.mem_cons_self _ _, hl, h1⟩
        · obtain ⟨k', p', qs', hm, hlk, he⟩ := ih rs' hr h1
          exact ⟨k', p', qs', List.mem_cons_of_mem _ hm, hlk, he⟩

theorem rowsOf_ok_keys (rest : JoinInput) (es : Data) (rs : List (List String))
    (n : Nat) (h : rowsOf rest es = .ok rs)
    (hlen : ∀ e ∈ es, (e : Key × Projection).1.length = n) :
    rs.map (List.take n) = es.map Prod.fst := by
  induction es generalizing rs with
  | nil =>
    cases h
    rfl
  | cons e es ih =>
    obtain ⟨k, p⟩ := e
    rw [rowsOf] at h
    rcases hl : lookupAll rest k with _ | qs
    · rw [hl] at h
      cases h
    · rw [hl] at h
      rcases hr : rowsOf rest es with e' | rs'
      · rw [hr] at h
        cases h
      · rw [hr] at h
        cases h
        rw [List.map_cons, List.map_cons,
          ih rs' hr (fun e he => hlen e (List.mem_cons_of_mem _ he))]
        have hkn : k.length = n := hlen (k, p) (List.mem_cons_self _ _)
        rw [List.append_assoc, ← hkn, List.take_left]

/-!  Lemmas about the source loop. -/

theorem readSources_forall2 (spec : JoinSpec) (fs : FileSys) (ss : List Source)
    (input : JoinInput) (h : readSources spec fs ss = .ok input) :
    List.Forall₂
      (fun (s : Source) (d : Data) => ∃ file, fsOpen fs s.path = some file ∧
        read_file file spec.key (s.projections.map Prod.fst) = .ok d)
      ss input := by
  induction ss generalizing input with
  | nil =>
    cases h
    exact List.Forall₂.nil
  | cons s ss ih =>
    rw [readSources] at h
    rcases ho : fsOpen fs s.path with _ | file
    · simp only [ho] at h
      cases h
    · simp only [ho] at h
      rcases hf : read_file file spec.key (s.projections.map Prod.fst) with e | d
      · simp only [hf] at h
        cases h
      · simp only [hf] at h
        rcases hs : readSources spec fs ss with e | ds
        · simp only [hs] at h
          cases h
        · simp only [hs] at h
          cases h
          exact List.Forall₂.cons ⟨file, ho, hf⟩ (ih _ hs)

theorem read_input_ok_head (spec : JoinSpec) (fs : FileSys) (s0 : Source)
    (stail : List Source) (hs : spec.sources = s0 :: stail) (input : JoinInput)
    (h : read_input spec fs = .ok input) :
    ∃ file0 d0 rest, input = d0 :: rest ∧ fsOpen fs s0.path = some file0 ∧
      read_file file0 spec.key (s0.projections.map Prod.fst) = .ok d0 ∧
      readSources spec fs stail = .ok rest := by
  rw [read_input, hs, readSources] at h
  rcases ho : fsOpen fs s0.path with _ | file
  · simp only [ho] at h
    cases h
  · simp only [ho] at h
    rcases hf : read_file file spec.key (s0.projections.map Prod.fst) with e | d
    · simp only [hf] at h
      cases h
    · simp only [hf] at h
      rcases hr : readSources spec fs stail with e | ds
      · simp only [hr] at h
        cases h
      · simp only [hr] at h
        cases h
        exact ⟨file, d, ds, rfl, rfl, hf, rfl⟩

theorem write_output_ok_elim (spec : JoinSpec) (input : JoinInput)
    (out : List (List String)) (h : write_output spec input = .ok out) :
    ∃ d0 rest rs, input = d0 :: rest ∧ rowsOf rest d0 = .ok rs ∧
      out = headerRow spec :: rs := by
  rcases input with _ | ⟨d0, rest⟩
  · cases h
  · rw [write_output] at h
    rcases hr : rowsOf rest d0 with e | rs
    · simp only [hr] at h
      cases h
    · simp only [hr] at h
      cases h
      exact ⟨d0, rest, rs, rfl, hr, rfl⟩

theorem lookupAll_get (ds : JoinInput) (k : Key) (qs : List Projection)
    (h : lookupAll ds k = some qs) :
    qs.length = ds.length ∧
      ∀ i (hi : i < ds.length), mapGet (ds.get ⟨i, hi⟩) k = qs.get? i := by
  induction ds generalizing qs with
  | nil =>
    cases h
    exact ⟨rfl, fun i hi => absurd hi (by simp)⟩
  | cons d ds ih =>
    rw [lookupAll] at h
    rcases hg : mapGet d k with _ | q
    · rw [hg] at h
      cases h
    · rcases hl : lookupAll ds k with _ | qs'
      · rw [hg, hl] at h
        cases h
      · rw [hg, hl] at h
        cases h
        obtain ⟨hlen, hget⟩ := ih _ hl
        refine ⟨by simp [hlen], ?_⟩
        intro i hi
        cases i with
        | zero => simpa using hg
        | succ i => simpa using hget i (by simpa using hi)

/-!  The claims. -/

/-- Claim C1, amended.  For every join run in which some Key present in the
driver source has no entry in the indexed mapping of some other source, the
whole run aborts — no row is silently skipped and the join never proceeds past
that Key — but the abort is the generic `Option::unwrap` panic
(`panicUnwrapNone`), which identifies neither the missing Key nor the
offending source. -/
theorem missing_key_aborts_run (spec : JoinSpec) (fs : FileSys) (d0 : Data)
    (rest : JoinInput) (k : Key) (d : Data)
    (hin : read_input spec fs = .ok (d0 :: rest))
    (hk : k ∈ d0.map Prod.fst) (hd : d ∈ rest) (hmiss : mapGet d k = none) :
    runJoin spec fs = .error .panicUnwrapNone := by
  have h1 : lookupAll rest k = none := lookupAll_none rest k d hd hmiss
  have h2 : rowsOf rest d0 = .error .panicUnwrapNone := rowsOf_err rest d0 k hk h1
  simp only [runJoin, hin, write_output, h2]

theorem missing_key_aborts_run_witness :
    runJoin specAB fsMissing2 = .error .panicUnwrapNone :=
  missing_key_aborts_run specAB fsMissing2
    [(["1"], ["alice"]), (["2"], ["bob"])] [[(["1"], ["80"])]]
    ["2"] [(["1"], ["80"])] (by rfl) (by decide) (by decide) (by rfl)

/-- Claim C1, counterexample to the claim as stated.  Two runs in which a
different Key is missing from a different source abort with the SAME error
value, the context-free `Option::unwrap` panic: in `fsMissing2` the driver Key
["2"] is missing from source index 1 (b.csv), while in `fsMissing3` the driver
Key ["3"] is missing from source index 2 (c.csv).  An abort value that is
identical in both runs identifies neither the missing Key nor the offending
source, so no `JoinKeyMissingError` carrying that information is produced. -/
theorem missing_key_not_identified :
    runJoin specAB fsMissing2 = runJoin specABC fsMissing3 ∧
    runJoin specAB fsMissing2 = .error .panicUnwrapNone :=
  ⟨rfl, rfl⟩

/-- Claim C2.  If any requested key or projection column name is absent from a
source's header, indexing that source fails (with the `unwrap` panic raised
while resolving names to offsets — the condition the spec calls
`ColumnNotFoundError`), and it does so before any data row is processed: the
conclusion holds for every `file.rows` whatsoever — even rows that would
themselves be malformed are never reached (the error is `panicUnwrapNone`,
never `rowParseError`) — and no row is reflected in any result mapping. -/
theorem column_not_found (file : CsvFile) (ks ps : List String) (c : String)
    (hc : c ∈ ks ∨ c ∈ ps) (habs : c ∉ file.header) :
    read_file file ks ps = .error .panicUnwrapNone := by
  have hnone : mapGet (buildHeaderMap file.header) c = none :=
    (mapGet_buildHeaderMap_none _ _).mpr habs
  rcases hc with hc | hc
  · have h := resolveCols_none _ _ _ hc hnone
    rcases hp : resolveCols (buildHeaderMap file.header) ps with _ | pIdx <;>
      simp [read_file, h, hp]
  · have h := resolveCols_none _ _ _ hc hnone
    rcases hk : resolveCols (buildHeaderMap file.header) ks with _ | kIdx <;>
      simp [read_file, h, hk]

theorem column_not_found_witness :
    read_file ⟨["id", "nom"], [["1", "alice"]]⟩ ["id"] ["name"] =
      .error .panicUnwrapNone :=
  column_not_found ⟨["id", "nom"], [["1", "alice"]]⟩ ["id"] ["name"] "name"
    (Or.inr (by decide)) (by decide)

/-- Claim C3.  Key-order preservation: in every successful run the sequence of
output data rows, projected back to their Key fields, is exactly the order of
first appearance of each Key among the data rows of the first declared
source's file.  The right-hand side mentions only the driver source's file, so
the order is independent of the row order of every other source's file. -/
theorem output_key_order (spec : JoinSpec) (fs : FileSys) (s0 : Source)
    (stail : List Source) (file0 : CsvFile) (kIdx : List Nat)
    (input : JoinInput) (out : List (List String))
    (hs : spec.sources = s0 :: stail)
    (hf : fsOpen fs s0.path = some file0)
    (hk : resolveCols (buildHeaderMap file0.header) spec.key = some kIdx)
    (hin : read_input spec fs = .ok input)
    (hout : write_output spec input = .ok out) :
    out.tail.map (List.take spec.key.length) =
      firstSeen (file0.rows.map (extractAt kIdx)) := by
  obtain ⟨file0', d0, rest, hie, hfo, hrf, -⟩ :=
    read_input_ok_head spec fs s0 stail hs input hin
  rw [hf] at hfo
  obtain rfl := Option.some.inj hfo
  subst hie
  obtain ⟨d0', rest', rs, hie', hrows, hoe⟩ :=
    write_output_ok_elim spec _ out hout
  injection hie' with h1 h2
  subst h1
  subst h2
  have hshape := read_file_shape _ _ _ _ hrf
  have hkeys : rs.map (List.take spec.key.length) = d0.map Prod.fst :=
    rowsOf_ok_keys rest d0 rs spec.key.length hrows
      (fun e he => (hshape e he).1)
  obtain ⟨kIdx', pIdx', hk', hp', -, hd⟩ := read_file_ok_elim _ _ _ _ hrf
  rw [hk] at hk'
  obtain rfl := Option.some.inj hk'
  rw [hoe]
  simp only [List.tail_cons]
  rw [hkeys, hd, foldl_rowStep_keys]
  rfl

theorem output_key_order_witness :
    [["id", "name", "score"], ["1", "alice", "80"],
      ["2", "bob", "90"]].tail.map (List.take specAB.key.length) =
      firstSeen ([["1", "alice"], ["2", "bob"]].map (extractAt [0])) :=
  output_key_order specAB fsRound ⟨"a.csv", [("name", "name")]⟩
    [⟨"b.csv", [("score", "score")]⟩] ⟨["id", "name"], [["1", "alice"], ["2", "bob"]]⟩
    [0]
    [[(["1"], ["alice"]), (["2"], ["bob"])], [(["2"], ["90"]), (["1"], ["80"])]]
    [["id", "name", "score"], ["1", "alice", "80"], ["2", "bob", "90"]]
    rfl rfl rfl rfl rfl

/-- Claim C4.  In every successful run the output header row is the key column
names in `JoinSpec.key` order followed by, for each source in declaration
order, that source's projection output names (the values of its `projections`
map) in insertion order. -/
theorem output_header (spec : JoinSpec) (input : JoinInput)
    (out : List (List String)) (h : write_output spec input = .ok out) :
    out.head? = some (spec.key ++
      (spec.sources.map (fun s => s.projections.map Prod.snd)).flatten) := by
  obtain ⟨d0, rest, rs, -, -, hoe⟩ := write_output_ok_elim spec input out h
  rw [hoe]
  rfl

theorem output_header_witness :
    [["id", "name", "score"], ["1", "alice", "80"], ["2", "bob", "90"]].head? =
      some (specAB.key ++
        (specAB.sources.map (fun s => s.projections.map Prod.snd)).flatten) :=
  output_header specAB
    [[(["1"], ["alice"]), (["2"], ["bob"])], [(["2"], ["90"]), (["1"], ["80"])]]
    [["id", "name", "score"], ["1", "alice", "80"], ["2", "bob", "90"]] rfl

/-- Claim C5.  For every source file, the IndexedSource built by `read_file`
maps each Key to the Projection of the LAST data row bearing that Key
(last-write-wins: the first match in the reversed row list), while the keys'
iteration order is the order of each Key's FIRST appearance among the data
rows. -/
theorem last_write_wins (file : CsvFile) (ks ps : List String)
    (kIdx pIdx : List Nat) (d : Data)
    (hk : resolveCols (buildHeaderMap file.header) ks = some kIdx)
    (hp : resolveCols (buildHeaderMap file.header) ps = some pIdx)
    (h : read_file file ks ps = .ok d) (k : Key) :
    mapGet d k =
      (file.rows.reverse.find? (fun r => extractAt kIdx r = k)).map
        (extractAt pIdx) ∧
    d.map Prod.fst = firstSeen (file.rows.map (extractAt kIdx)) := by
  obtain ⟨kIdx', pIdx', hk', hp', -, hd⟩ := read_file_ok_elim file ks ps d h
  rw [hk] at hk'
  rw [hp] at hp'
  obtain rfl := Option.some.inj hk'
  obtain rfl := Option.some.inj hp'
  constructor
  · rw [hd, foldl_rowStep_get, show mapGet ([] : Data) k = none from rfl,
      Option.or_none]
  · rw [hd, foldl_rowStep_keys]
    rfl

theorem last_write_wins_witness :
    mapGet [(["1"], ["c"]), (["2"], ["b"])] ["1"] =
      (dupKeyFile.rows.reverse.find? (fun r => extractAt [0] r = ["1"])).map
        (extractAt [1]) ∧
    [(["1"], ["c"]), (["2"], ["b"])].map Prod.fst =
      firstSeen (dupKeyFile.rows.map (extractAt [0])) :=
  last_write_wins dupKeyFile ["id"] ["name"] [0] [1]
    [(["1"], ["c"]), (["2"], ["b"])] rfl rfl rfl ["1"]

/-- Claim C6.  For every driver entry in a successful run, the emitted output
row (at position j+1 of the output, after the header) is exactly the Key
values, followed by the driver source's Projection for that Key, followed by,
for every other source in declaration order, that source's Projection for the
same Key (`qs` lists those per-source lookups positionally). -/
theorem output_row_content (spec : JoinSpec) (d0 : Data) (rest : JoinInput)
    (out : List (List String)) (h : write_output spec (d0 :: rest) = .ok out)
    (j : Nat) (hj : j < d0.length) :
    ∃ qs : List Projection, qs.length = rest.length ∧
      (∀ i (hi : i < rest.length),
        mapGet (rest.get ⟨i, hi⟩) (d0.get ⟨j, hj⟩).1 = qs.get? i) ∧
      out.get? (j + 1) =
        some ((d0.get ⟨j, hj⟩).1 ++ (d0.get ⟨j, hj⟩).2 ++ qs.flatten) := by
  obtain ⟨d0', rest', rs, hie', hrows, hoe⟩ := write_output_ok_elim spec _ out h
  injection hie' with h1 h2
  subst h1
  subst h2
  obtain ⟨qs, hl, hget⟩ := rowsOf_ok_get rest d0 rs hrows j hj
  obtain ⟨hlen, hpt⟩ := lookupAll_get rest _ qs hl
  refine ⟨qs, hlen, hpt, ?_⟩
  rw [hoe]
  simpa using hget

theorem output_row_content_witness :
    ∃ qs : List Projection,
      qs.length = ([[(["2"], ["90"]), (["1"], ["80"])]] : JoinInput).length ∧
      (∀ i (hi : i < ([[(["2"], ["90"]), (["1"], ["80"])]] : JoinInput).length),
        mapGet (([[(["2"], ["90"]), (["1"], ["80"])]] : JoinInput).get ⟨i, hi⟩)
          (([(["1"], ["alice"]), (["2"], ["bob"])] : Data).get ⟨0, by decide⟩).1 =
          qs.get? i) ∧
      [["id", "name", "score"], ["1", "alice", "80"],
        ["2", "bob", "90"]].get? (0 + 1) =
        some ((([(["1"], ["alice"]), (["2"], ["bob"])] : Data).get ⟨0, by decide⟩).1 ++
          (([(["1"], ["alice"]), (["2"], ["bob"])] : Data).get ⟨0, by decide⟩).2 ++
          qs.flatten) :=
  output_row_content specAB [(["1"], ["alice"]), (["2"], ["bob"])]
    [[(["2"], ["90"]), (["1"], ["80"])]]
    [["id", "name", "score"], ["1", "alice", "80"], ["2", "bob", "90"]]
    rfl 0 (by decide)

/-- Claim C7.  If a source file contains a data row with the wrong field
count, indexing fails with the csv record error carrying the 1-based ordinal
position of the first such row (the spec's `RowParseError`), and no mapping is
returned at all — indexing is all-or-nothing. -/
theorem malformed_row (file : CsvFile) (ks ps : List String)
    (kIdx pIdx : List Nat)
    (hk : resolveCols (buildHeaderMap file.header) ks = some kIdx)
    (hp : resolveCols (buildHeaderMap file.header) ps = some pIdx)
    (hbad : ∃ r ∈ file.rows, r.length ≠ file.header.length) :
    read_file file ks ps =
      .error (.rowParseError
        (file.rows.findIdx (fun r => r.length != file.header.length) + 1)) := by
  simp only [read_file, hk, hp]
  rw [readRows_badRow kIdx pIdx file.header.length 1 [] file.rows hbad,
    Nat.add_comm 1]

theorem malformed_row_witness :
    read_file badRowFile ["id"] ["name"] = .error (.rowParseError 2) :=
  (malformed_row badRowFile ["id"] ["name"] [0] [1] rfl rfl
    ⟨["2"], by decide, by decide⟩).trans (by rfl)

/-- Claim C8.  The spec's round-trip scenario: with source A = (id,name) rows
(1,alice),(2,bob), source B = (id,score) rows (2,90),(1,80), key [id], A
projecting name and B projecting score, the run succeeds and the output is the
header id,name,score followed by 1,alice,80 then 2,bob,90, in that order. -/
theorem round_trip :
    runJoin specAB fsRound =
      .ok [["id", "name", "score"], ["1", "alice", "80"], ["2", "bob", "90"]] :=
  rfl

/-- Claim C9.  `load_spec` performs no non-emptiness validation: a well-formed
document with an empty `sources` sequence deserializes successfully; indexing
then yields the empty input vector, and `write_output` hits the
out-of-bounds panic of `input[0]` — the non-emptiness of the indexed-sources
list is exactly what the first indexing operation needs to be in bounds. -/
theorem empty_sources_accepted :
    load_spec emptySourcesDoc = some ⟨["id"], [], "out.csv"⟩ ∧
    read_input ⟨["id"], [], "out.csv"⟩ [] = .ok [] ∧
    write_output ⟨["id"], [], "out.csv"⟩ [] = .error .panicIndexOutOfBounds :=
  ⟨rfl, rfl, rfl⟩

/-- Claim C10.  In every successful run, every record of the output — the
header row and every data row — has exactly the number of fields given by the
number of key columns plus the sum over all sources of the size of that
source's projections map; in particular every data row is as wide as the
header row.  This rests on `read_file` producing Keys of the key-column count
and Projections of the projection-column count. -/
theorem output_row_width (spec : JoinSpec) (fs : FileSys) (input : JoinInput)
    (out : List (List String))
    (hin : read_input spec fs = .ok input)
    (hout : write_output spec input = .ok out) :
    ∀ row ∈ out, row.length =
      spec.key.length + (spec.sources.map (fun s => s.projections.length)).sum := by
  obtain ⟨d0, rest, rs, hie, hrows, hoe⟩ := write_output_ok_elim spec input out hout
  subst hie
  rw [read_input] at hin
  have hall := readSources_forall2 spec fs spec.sources _ hin
  obtain ⟨s0, stail, hr0, htail, hss⟩ := List.forall₂_cons_right_iff.mp hall
  obtain ⟨file0, -, hrf0⟩ := hr0
  have hshape0 := read_file_shape _ _ _ _ hrf0
  have htails : List.Forall₂
      (fun (s : Source) (d : Data) =>
        ∀ e ∈ d, (e : Key × Projection).2.length = s.projections.length)
      stail rest := by
    refine htail.imp ?_
    rintro s d ⟨file, -, hrf⟩ e he
    rw [(read_file_shape _ _ _ _ hrf e he).2, List.length_map]
  intro row hrow
  rw [hoe] at hrow
  rcases List.mem_cons.mp hrow with h1 | h1
  · subst h1
    simp only [headerRow, List.length_append, List.length_flatten, List.map_map,
      hss, List.map_cons, List.sum_cons, Function.comp]
    have hcomp : (stail.map
        (List.length ∘ fun s => List.map Prod.snd s.projections)).sum =
        (stail.map (fun s => s.projections.length)).sum := by
      congr 1
      refine List.map_congr_left ?_
      intro s _
      simp [Function.comp]
    simp [hcomp]
  · obtain ⟨k, p, qs, hmem, hlk, hrw⟩ := rowsOf_ok_mem rest d0 rs hrows row h1
    have hk : k.length = spec.key.length := (hshape0 (k, p) hmem).1
    have hp : p.length = s0.projections.length := by
      rw [(hshape0 (k, p) hmem).2, List.length_map]
    have hqs : qs.map List.length = stail.map (fun s => s.projections.length) :=
      lookupAll_lengths stail rest k qs htails hlk
    have hfl : qs.flatten.length =
        (stail.map (fun s => s.projections.length)).sum := by
      rw [List.length_flatten, hqs]
    rw [hrw, hss]
    simp only [List.length_append, List.map_cons, List.sum_cons, hk, hp, hfl]
    omega

theorem output_row_width_witness :
    (["1", "alice", "80"] : List String).length = specAB.key.length +
      (specAB.sources.map (fun s => s.projections.length)).sum :=
  output_row_width specAB fsRound
    [[(["1"], ["alice"]), (["2"], ["bob"])], [(["2"], ["90"]), (["1"], ["80"])]]
    [["id", "name", "score"], ["1", "alice", "80"], ["2", "bob", "90"]]
    rfl rfl ["1", "alice", "80"] (by decide)
